import Mathlib

/-!
Verification of the Ripple_DB storage engine core against its specification.

Bytes are modelled as `Nat` (values 0..255 where relevant), buffers as
`List Nat`, strings as `List Char`.  Machine arithmetic that matters
(56-bit sequence numbers, 32-bit bloom hashes) is made explicit with
`% 2^w`.  Components of the repository whose source is not available
(Coding.ts, Buffer.ts, BitBuffer.ts, Hash.ts, the bytewise Comparator,
Version.getOverlappingInputs, Status/Env plumbing) are modelled from the
specification and marked as such in their doc comments.
-/

namespace RippleDB

/-! ## Coding primitives

Modelled from the spec (§4.1): Coding.ts is not under src.
`encode_fixed32/64` are little-endian; decoders read the first 4/8 bytes. -/

/-- Little-endian encoding of `n` into exactly `k` bytes. -/
def encodeLE : Nat → Nat → List Nat
  | 0, _ => []
  | k + 1, n => n % 256 :: encodeLE k (n / 256)

/-- Little-endian decoding of a byte list. -/
def decodeLE : List Nat → Nat
  | [] => 0
  | b :: r => b + 256 * decodeLE r

/-- Modelled from the spec: `encode_fixed64`, little-endian over 8 bytes. -/
def encodeFixed64 (n : Nat) : List Nat := encodeLE 8 n

/-- Modelled from the spec: `decode_fixed64` reads 8 little-endian bytes. -/
def decodeFixed64 (l : List Nat) : Nat := decodeLE (l.take 8)

/-- Modelled from the spec: `decode_fixed32` reads 4 little-endian bytes. -/
def decodeFixed32 (l : List Nat) : Nat := decodeLE (l.take 4)

theorem encodeLE_length (k n : Nat) : (encodeLE k n).length = k := by
  induction k generalizing n with
  | zero => rfl
  | succ k ih => simp [encodeLE, ih]

theorem decodeLE_append_zero (l : List Nat) : decodeLE (l ++ [0]) = decodeLE l := by
  induction l with
  | nil => simp [decodeLE]
  | cons b r ih => simp [decodeLE, ih]

theorem decodeLE_encodeLE (k n : Nat) : decodeLE (encodeLE k n) = n % 256 ^ k := by
  induction k generalizing n with
  | zero => simp [encodeLE, decodeLE, Nat.mod_one]
  | succ k ih =>
    simp only [encodeLE, decodeLE, ih]
    rw [pow_succ', Nat.mod_mul]

theorem encodeLE_take (k m n : Nat) :
    (encodeLE (k + m) n).take k = encodeLE k n := by
  induction k generalizing n with
  | zero => simp [encodeLE]
  | succ k ih =>
    simp only [Nat.succ_add, encodeLE, List.take_succ_cons]
    rw [ih]

/-- Setting the last byte of a `k+1`-byte little-endian encoding. -/
theorem encodeLE_set_last (k n t : Nat) :
    (encodeLE (k + 1) n).set k t = encodeLE k n ++ [t] := by
  induction k generalizing n with
  | zero => simp [encodeLE]
  | succ k ih =>
    rw [show encodeLE (k + 1 + 1) n = n % 256 :: encodeLE (k + 1) (n / 256) from rfl,
        show encodeLE (k + 1) n = n % 256 :: encodeLE k (n / 256) from rfl,
        List.set_cons_succ, ih, List.cons_append]

/-! ## Internal keys (src/Format.ts) -/

/-- Model of `kMaxSequenceNumber = (1n << 56n) - 1n` (Format.ts). -/
def kMaxSequenceNumber : Nat := 2 ^ 56 - 1

/-- Model of `kValueTypeForSeek = ValueType.kTypeValue = 0x01` (Format.ts). -/
def kValueTypeForSeek : Nat := 1

/-- Model of `packSequenceAndType` (Format.ts): `(seq << 8n) | type`. -/
def packSequenceAndType (seq t : Nat) : Nat := Nat.lor (seq * 256) t

/-- Model of `ParsedInternalKey` (Format.ts). -/
structure ParsedInternalKey where
  userKey : List Nat
  sn : Nat
  valueType : Nat
deriving DecidableEq, Repr

/-- Model of `appendInternalKey` (Format.ts): `encodeFixed64(sn)` with byte 7
overwritten by the value type (`fillInt(valueType, 7, 8)`), appended to
the user key. -/
def appendInternalKey (buf : List Nat) (key : ParsedInternalKey) : List Nat :=
  buf ++ key.userKey ++ (encodeFixed64 key.sn).set 7 key.valueType

/-- An internal key built by the `InternalKey` constructor from
`(userKey, sn, valueType)`. -/
def mkInternalKey (userKey : List Nat) (sn valueType : Nat) : List Nat :=
  appendInternalKey [] ⟨userKey, sn, valueType⟩

/-- Model of `extractUserKey` (Format.ts): everything but the last 8 bytes. -/
def extractUserKey (ikey : List Nat) : List Nat :=
  ikey.take (ikey.length - 8)

/-- Model of `InternalKey.sequence` getter (Format.ts): copies the first 7 bytes of
the 8-byte tail into a zeroed 8-byte buffer and decodes it with
`decodeFixed32` (only 4 bytes!). -/
def internalKeySequence (ikey : List Nat) : Nat :=
  decodeFixed32 ((ikey.drop (ikey.length - 8)).take 7 ++ [0])

/-- The 56-bit sequence number stored in the tail of an internal key:
the first 7 of the last 8 bytes, padded with a zero byte and decoded with
`decodeFixed64`.  Both `parseInternalKey` and
`InternalKeyComparator.compare` (Format.ts) compute exactly this. -/
def tailSequence (ikey : List Nat) : Nat :=
  decodeFixed64 ((ikey.drop (ikey.length - 8)).take 7 ++ [0])

/-- Model of `parseInternalKey` (Format.ts): returns the user key, the sequence
number decoded with `decodeFixed64` from the 7 sequence bytes padded with
a zero byte, and the last byte as value type.  The `assert` in
`extractUserKey` throws (caught as failure) when the key is shorter than
8 bytes. -/
def parseInternalKey (ikey : List Nat) : Option ParsedInternalKey :=
  if 8 ≤ ikey.length then
    some ⟨ikey.take (ikey.length - 8), tailSequence ikey, ikey.getLastD 0⟩
  else none

/-- Modelled from the spec (§2, §4.2): the byte-lex user comparator
(Comparator.ts is not under src).  Returns -1/0/1 like `Buffer.compare`. -/
def byteCompare : List Nat → List Nat → Int
  | [], [] => 0
  | [], _ :: _ => -1
  | _ :: _, [] => 1
  | a :: s, b :: t =>
    if a < b then -1 else if b < a then 1 else byteCompare s t

/-- Model of `InternalKeyComparator.compare` (Format.ts): compare user keys with the
user comparator; on a tie, decode the 7 sequence bytes of each tail
(concatenated with the zero byte `oneByte`) with `decodeFixed64`; the
larger sequence compares smaller; equal sequences compare equal (the type
byte is never consulted). -/
def icmpCompare (key1 key2 : List Nat) : Int :=
  let r := byteCompare (extractUserKey key1) (extractUserKey key2)
  if r ≠ 0 then r
  else
    let sn1 := tailSequence key1
    let sn2 := tailSequence key2
    if sn1 = sn2 then 0 else if sn1 > sn2 then -1 else 1

/-- Modelled from the spec (§2): the byte-lex comparator's
`findShortestSeparator`; find the first differing byte; if it can be
incremented to stay strictly below `limit`, truncate there. -/
def bytewiseFindShortestSeparator : List Nat → List Nat → List Nat
  | [], _ => []
  | a :: s, [] => a :: s
  | a :: s, b :: l =>
    if a = b then a :: bytewiseFindShortestSeparator s l
    else if a < 255 ∧ a + 1 < b then [a + 1]
    else a :: s

/-- Model of `InternalKeyComparator.findShortestSeparator` (Format.ts): shorten the
user portion; if it became physically shorter but logically larger,
append the tail `packSequenceAndType(kMaxSequenceNumber,
kValueTypeForSeek)` and replace `start`; otherwise `start` is unchanged. -/
def icmpFindShortestSeparator (start limit : List Nat) : List Nat :=
  let userStart := extractUserKey start
  let userLimit := extractUserKey limit
  let tmp := bytewiseFindShortestSeparator userStart userLimit
  if tmp.length < userStart.length ∧ byteCompare userStart tmp < 0 then
    tmp ++ encodeFixed64 (packSequenceAndType kMaxSequenceNumber kValueTypeForSeek)
  else start

/-! ## MemTable immutable flag (src/Format.ts, MemTable part) -/

/-- Model of `MemTable` constructor: `this._immutable = false`. -/
def memTableInitialImmutable : Bool := false

/-- The `immutable` setter (Format.ts): `if (next) this._immutable = true;`
— assigning `false` is ignored. -/
def memTableSetImmutable (cur next : Bool) : Bool :=
  if next then true else cur

/-- The immutable flag after a sequence of setter assignments, starting
from a fresh `MemTable`. -/
def memTableImmutableAfter (assigns : List Bool) : Bool :=
  assigns.foldl memTableSetImmutable memTableInitialImmutable

/-! ## Bloom filter (src/BloomFilter.ts)

`BitBuffer.ts` and `Hash.ts` are not under src.  The bit buffer is
modelled from the spec as a total bit array over integer positions (the
set of positions that hold `true`), with its `bits` property equal to
8 × its byte length; the hash is an arbitrary function into the JS
numbers (here `Int`). -/

/-- Unsigned 32-bit view of a JS number, for the bitwise-or operand. -/
def toUint32 (x : Int) : Nat := (x.emod (2 ^ 32)).toNat

/-- JS `ToInt32` conversion. -/
def toInt32 (x : Int) : Int := (x + 2 ^ 31).emod (2 ^ 32) - 2 ^ 31

/-- Model of `delta = (h >> 17) | (h << 15)` (BloomFilter.ts) with JS 32-bit
semantics: arithmetic shift right (floor division on the int32 view),
shift left modulo 2^32, bitwise or on the unsigned views, re-signed. -/
def bloomDelta (h : Int) : Int :=
  toInt32 (Nat.lor (toUint32 (Int.fdiv (toInt32 h) (2 ^ 17)))
                   (toUint32 (toInt32 (toInt32 h * 2 ^ 15))))

/-- Model of `k = Math.round(bitsPerKey * 0.69)` with the default
`bitsPerKey = 10`: `Math.round(6.899999999999999) = 7`. -/
def bloomK : Nat := 7

/-- The double-hashing probe positions (BloomFilter.ts): start at
`h = hash(key)`, step by `delta` (computed once from `h`), and reduce
with the JS `%` (truncated remainder) by the bit count.  `h` itself is
never wrapped to 32 bits by the source. -/
def probePositions (hash : List Nat → Int) (key : List Nat) (k bits : Nat) : List Int :=
  (List.range k).map fun j => Int.tmod (hash key + j * bloomDelta (hash key)) bits

/-- An encoded bloom filter: the data area (as its bit count and the set
positions) followed by the stored hash-count byte. -/
structure EncodedFilter where
  nbits : Nat
  setBits : List Int
  storedK : Nat
deriving DecidableEq, Repr

/-- Model of `BloomFilter.putKeys` (BloomFilter.ts) on a freshly constructed
default filter: `bits = bitsPerKey * n`, floored at 64; the JS float
computation `bytes = (bits + 7) / 8; bits = bytes * 8` yields
`bits + 7`, which `resizeBits` rounds up to whole bytes; every probe
position of the first `n` keys is set; the stored k byte is `bloomK`. -/
def putKeys (hash : List Nat → Int) (keys : List (List Nat)) (n : Nat) : EncodedFilter :=
  let bits0 := if 10 * n < 64 then 64 else 10 * n
  let nbits := 8 * ((bits0 + 7 + 7) / 8)
  ⟨nbits, (keys.take n).flatMap fun key => probePositions hash key bloomK nbits, bloomK⟩

/-- Model of `BloomFilter.keyMayMatch` (BloomFilter.ts): reconstruct the filter
from the encoded bytes with the default `bitsPerKey = 10`; the
constructor forces `kNumber` back to `bloomK` (resizing the bit buffer
to `bloomK` bits) whenever the stored byte differs; return `true` if
`kNumber > 30`; otherwise probe every position. -/
def keyMayMatch (hash : List Nat → Int) (key : List Nat) (f : EncodedFilter) : Bool :=
  let kNumber := if f.storedK ≠ bloomK then bloomK else f.storedK
  let bits := if f.storedK ≠ bloomK then 8 * ((bloomK + 7) / 8) else f.nbits
  if kNumber > 30 then true
  else (probePositions hash key kNumber bits).all fun p => f.setBits.contains p

/-! ## Compaction (src/Compaction.ts) -/

/-- Model of `FileMetaData` (VersionFormat.ts, via its uses in src): file number,
byte size, smallest and largest internal key. -/
structure FileMetaData where
  number : Nat
  fileSize : Nat
  smallest : List Nat
  largest : List Nat
deriving DecidableEq, Repr

/-- The options consulted by the compaction code. -/
structure Options where
  maxFileSize : Nat
deriving DecidableEq, Repr

/-- Model of `Compaction.targetFileSize` (Compaction.ts). -/
def targetFileSize (o : Options) : Nat := o.maxFileSize

/-- Model of `Compaction.maxGrandParentOverlapBytes` (Compaction.ts). -/
def maxGrandParentOverlapBytes (o : Options) : Nat := 10 * targetFileSize o

/-- Model of `Compaction.totalFileSize` (Compaction.ts). -/
def totalFileSize (files : List FileMetaData) : Nat :=
  files.foldl (fun sum f => sum + f.fileSize) 0

/-- The fields of `Compaction` consulted by `isTrivialMove`. -/
structure Compaction where
  level : Nat
  inputs0 : List FileMetaData
  inputs1 : List FileMetaData
  grandparents : List FileMetaData
deriving Repr

/-- Model of `Compaction.isTrivialMove` (Compaction.ts). -/
def isTrivialMove (o : Options) (c : Compaction) : Bool :=
  c.inputs0.length == 1 && c.inputs1.length == 0 &&
    decide (totalFileSize c.grandparents ≤ maxGrandParentOverlapBytes o)

/-! ## VersionSet.compactRange input selection (src/unnamed/part_000) -/

/-- Modelled from the spec (§4.11 "intersect the level with the
user-supplied range"): `Version.getOverlappingInputs` for a level > 0
(Version.ts is not under src) keeps the files whose user-key range
intersects the range of the two internal keys. -/
def getOverlappingInputs (files : List FileMetaData) (bg ed : List Nat) :
    List FileMetaData :=
  files.filter fun f =>
    !(decide (byteCompare (extractUserKey f.largest) (extractUserKey bg) < 0)) &&
    !(decide (byteCompare (extractUserKey f.smallest) (extractUserKey ed) > 0))

/-- The level > 0 capping loop of `VersionSet.compactRange` (part_000):
`total += fileSize; if (total >= limit) keep files up to and including
this one and stop`. -/
def capInputs : List FileMetaData → Nat → Nat → List FileMetaData
  | [], _, _ => []
  | f :: rest, limit, total =>
    if limit ≤ total + f.fileSize then [f]
    else f :: capInputs rest limit (total + f.fileSize)

/-- The input files selected by `VersionSet.compactRange` (part_000)
before `setupOtherInputs`: the overlapping files, capped when
`level > 0`; the empty list models the `void` return. -/
def compactRangeInputs (files : List FileMetaData) (bg ed : List Nat)
    (level maxFileSize : Nat) : List FileMetaData :=
  let inputs := getOverlappingInputs files bg ed
  if inputs.isEmpty then []
  else if 0 < level then capInputs inputs maxFileSize 0
  else inputs

/-! ## VersionSet.logAndApply (src/unnamed/part_000) -/

/-- The version-set state read and written by `logAndApply`.  Versions
are abstract identifiers; `files` lists the MANIFEST file numbers present
in the database directory. -/
structure VSState where
  current : Nat
  hasManifestWriter : Bool
  manifestFileNumber : Nat
  logNumber : Nat
  prevLogNumber : Nat
  files : List Nat
deriving DecidableEq, Repr

/-- The fields of the `VersionEdit` argument that `logAndApply` reads. -/
structure VersionEditNums where
  hasLogNumber : Bool
  logNumber : Nat
  hasPrevLogNumber : Bool
  prevLogNumber : Nat
deriving DecidableEq, Repr

/-- Modelled from the spec (§7): the outcomes of the fallible steps
inside `logAndApply` (Status, LogWriter and Env are not under src);
`true` is an ok status. -/
structure LogAndApplyOutcomes where
  writeSnapshotOk : Bool
  addRecordOk : Bool
  writeCurrentOk : Bool
deriving DecidableEq, Repr

/-- Model of `VersionSet.logAndApply` (part_000) as a state transition, returning
the final status together with the new state.  When no manifest writer
exists, a new MANIFEST is created (`env.open(manifestFilename, "a")`) and
seeded with a snapshot; on an ok status, the edit record and — for a new
manifest — the CURRENT update follow.  On success the new version is
installed; on failure the new MANIFEST (if any) is closed and unlinked
and the state is otherwise untouched. -/
def logAndApply (s : VSState) (edit : VersionEditNums) (io : LogAndApplyOutcomes)
    (newVersion : Nat) : Bool × VSState :=
  let editLogNumber := if edit.hasLogNumber then edit.logNumber else s.logNumber
  let editPrevLogNumber := if edit.hasPrevLogNumber then edit.prevLogNumber else s.prevLogNumber
  let created := !s.hasManifestWriter
  let files1 := if created then s.manifestFileNumber :: s.files else s.files
  let status1 := if created then io.writeSnapshotOk else true
  let status2 := status1 && io.addRecordOk
  let status3 := if created then status2 && io.writeCurrentOk else status2
  if status3 then
    (true, { s with current := newVersion,
                    hasManifestWriter := if created then false else s.hasManifestWriter,
                    files := files1,
                    logNumber := editLogNumber,
                    prevLogNumber := editPrevLogNumber })
  else
    (false, { s with hasManifestWriter := if created then false else s.hasManifestWriter,
                     files := if created then files1.erase s.manifestFileNumber else files1 })

/-! ## Filenames (src/Filename.ts) -/

/-- A decimal digit as a character. -/
def digitChar (n : Nat) : Char := Char.ofNat (48 + n)

/-- JS `String(num)` for a natural number: decimal digits, most
significant first.  Written with explicit fuel so concrete instances
reduce; `fuel = n + 1` always suffices. -/
def decDigitsAux : Nat → Nat → List Char
  | 0, _ => []
  | fuel + 1, n =>
    if n < 10 then [digitChar n]
    else decDigitsAux fuel (n / 10) ++ [digitChar (n % 10)]

/-- JS `String(num)`. -/
def decDigits (n : Nat) : List Char := decDigitsAux (n + 1) n

/-- The `while (str.length < 6) str = "0" + str` loop of
`numberToString` (Filename.ts); six iterations always suffice. -/
def padLoopAux : Nat → List Char → List Char
  | 0, s => s
  | fuel + 1, s => if s.length < 6 then padLoopAux fuel ('0' :: s) else s

/-- Model of `numberToString` (Filename.ts). -/
def numberToString (num : Nat) : List Char := padLoopAux 6 (decDigits num)

/-- Model of `getLogFilename` (Filename.ts), modelling the basename; the
`path.resolve(dbpath, ...)` join lives in the missing DBHelper. -/
def getLogFilename (logNumber : Nat) : List Char :=
  numberToString logNumber ++ ".log".data

/-- Model of `getTableFilename` (Filename.ts), basename. -/
def getTableFilename (tableNumber : Nat) : List Char :=
  numberToString tableNumber ++ ".ldb".data

/-- Model of `getManifestFilename` (Filename.ts), basename. -/
def getManifestFilename (manifestNumber : Nat) : List Char :=
  "MANIFEST-".data ++ numberToString manifestNumber

/-- Model of `getTempFilename` (Filename.ts), basename: the template literal uses
the raw number, not `numberToString`. -/
def getTempFilename (number : Nat) : List Char :=
  decDigits number ++ ".dbtmp".data

/-! ## Helper lemmas -/

theorem byteCompare_self (l : List Nat) : byteCompare l l = 0 := by
  induction l with
  | nil => rfl
  | cons a l ih => simp [byteCompare, ih]

theorem icmpCompare_self (k : List Nat) : icmpCompare k k = 0 := by
  simp [icmpCompare, byteCompare_self]

theorem icmpCompare_of_user_ne (k1 k2 : List Nat)
    (h : byteCompare (extractUserKey k1) (extractUserKey k2) ≠ 0) :
    icmpCompare k1 k2 = byteCompare (extractUserKey k1) (extractUserKey k2) := by
  simp only [icmpCompare]
  rw [if_pos h]

theorem extractUserKey_append (u t : List Nat) (h : t.length = 8) :
    extractUserKey (u ++ t) = u := by
  unfold extractUserKey
  rw [List.length_append, h, Nat.add_sub_cancel, List.take_left]

theorem mkInternalKey_eq (u : List Nat) (s t : Nat) :
    mkInternalKey u s t = u ++ (encodeLE 7 s ++ [t]) := by
  unfold mkInternalKey appendInternalKey encodeFixed64
  have h := encodeLE_set_last 7 s t
  norm_num at h
  simp [h]

theorem extractUserKey_mkInternalKey (u : List Nat) (s t : Nat) :
    extractUserKey (mkInternalKey u s t) = u := by
  rw [mkInternalKey_eq]
  exact extractUserKey_append u _ (by simp [encodeLE_length])

theorem tailSequence_mkInternalKey (u : List Nat) (s t : Nat) :
    tailSequence (mkInternalKey u s t) = s % 2 ^ 56 := by
  rw [mkInternalKey_eq]
  unfold tailSequence
  have hlen : (encodeLE 7 s ++ [t]).length = 8 := by simp [encodeLE_length]
  rw [List.length_append, hlen, Nat.add_sub_cancel, List.drop_left]
  have h7 : (encodeLE 7 s ++ [t]).take 7 = encodeLE 7 s := by
    have := List.take_left (encodeLE 7 s) [t]
    rwa [encodeLE_length] at this
  rw [h7]
  unfold decodeFixed64
  rw [List.take_of_length_le (by simp [encodeLE_length])]
  rw [decodeLE_append_zero, decodeLE_encodeLE]
  norm_num

/-! ## C1 — internal-key ordering -/

/-- C1 (counterexample): the claim says that for equal user keys and
equal sequence numbers the key with the larger type compares less; on the
code, two internal keys with user key `[97]`, sequence 1 and types 1 and
0 compare equal (the comparator never reads the type byte). -/
theorem internalKeyCompare_type_tie_cex :
    icmpCompare (mkInternalKey [97] 1 1) (mkInternalKey [97] 1 0) = 0 ∧
    ¬ icmpCompare (mkInternalKey [97] 1 1) (mkInternalKey [97] 1 0) < 0 := by
  constructor
  · decide
  · decide

/-- C1 (amended): `InternalKeyComparator.compare` orders internal keys by
ascending user key; for equal user keys the key with the larger sequence
number compares less; for equal user keys and equal sequence numbers the
result is 0 regardless of the two type bytes. -/
theorem internalKeyCompare_order (u1 u2 : List Nat) (s1 s2 t1 t2 : Nat)
    (h1 : s1 < 2 ^ 56) (h2 : s2 < 2 ^ 56) :
    (byteCompare u1 u2 ≠ 0 →
      icmpCompare (mkInternalKey u1 s1 t1) (mkInternalKey u2 s2 t2) = byteCompare u1 u2) ∧
    (u1 = u2 → s2 < s1 →
      icmpCompare (mkInternalKey u1 s1 t1) (mkInternalKey u2 s2 t2) = -1) ∧
    (u1 = u2 → s1 = s2 →
      icmpCompare (mkInternalKey u1 s1 t1) (mkInternalKey u2 s2 t2) = 0) := by
  have hu1 := extractUserKey_mkInternalKey u1 s1 t1
  have hu2 := extractUserKey_mkInternalKey u2 s2 t2
  have hs1 : tailSequence (mkInternalKey u1 s1 t1) = s1 := by
    rw [tailSequence_mkInternalKey, Nat.mod_eq_of_lt h1]
  have hs2 : tailSequence (mkInternalKey u2 s2 t2) = s2 := by
    rw [tailSequence_mkInternalKey, Nat.mod_eq_of_lt h2]
  refine ⟨?_, ?_, ?_⟩
  · intro hne
    rw [icmpCompare_of_user_ne _ _ (by rw [hu1, hu2]; exact hne), hu1, hu2]
  · intro he hlt
    subst he
    simp only [icmpCompare, hu1, hu2, byteCompare_self, hs1, hs2]
    rw [if_neg (by simp), if_neg (by omega), if_pos (by omega)]
  · intro he hse
    subst he
    simp only [icmpCompare, hu1, hu2, byteCompare_self, hs1, hs2]
    rw [if_neg (by simp), if_pos hse]

/-- Witness for `internalKeyCompare_order` at user key `[97]`,
sequences 2 and 1. -/
theorem internalKeyCompare_order_witness :
    icmpCompare (mkInternalKey [97] 2 0) (mkInternalKey [97] 1 1) = -1 :=
  (internalKeyCompare_order [97] [97] 2 1 0 1 (by norm_num) (by norm_num)).2.1 rfl
    (by norm_num)

/-! ## C2 — max-sequence pack/unpack -/

/-- C2 (code evaluated at the failing input): packing user key `[97]`,
type 1 and the maximum sequence number 2^56 − 1 round-trips through
`parseInternalKey`, but the `InternalKey.sequence` accessor decodes the
7-byte sequence buffer with `decodeFixed32` and returns only the low
32 bits, 2^32 − 1. -/
theorem internalKeySequence_truncation :
    internalKeySequence (mkInternalKey [97] (2 ^ 56 - 1) 1) = 2 ^ 32 - 1 ∧
    (parseInternalKey (mkInternalKey [97] (2 ^ 56 - 1) 1)).map ParsedInternalKey.sn =
      some (2 ^ 56 - 1) := by
  constructor
  · decide
  · decide

/-! ## C10 — MemTable immutable flag is monotone -/

theorem foldl_memTableSetImmutable_true (l : List Bool) :
    l.foldl memTableSetImmutable true = true := by
  induction l with
  | nil => rfl
  | cons b l ih => cases b <;> simpa [memTableSetImmutable]

/-- C10: the immutable flag of a fresh `MemTable` is `false`, and once a
sequence of setter assignments has made it `true`, any further
assignments (including `false`) leave it `true`. -/
theorem memTable_immutable_monotone :
    memTableImmutableAfter [] = false ∧
    ∀ l1 l2 : List Bool, memTableImmutableAfter l1 = true →
      memTableImmutableAfter (l1 ++ l2) = true := by
  refine ⟨rfl, fun l1 l2 h => ?_⟩
  unfold memTableImmutableAfter at *
  rw [List.foldl_append, h, foldl_memTableSetImmutable_true]

/-- Witness for `memTable_immutable_monotone`: set `true`, then assign
`false`; the flag stays `true`. -/
theorem memTable_immutable_monotone_witness :
    memTableImmutableAfter ([true] ++ [false]) = true :=
  memTable_immutable_monotone.2 [true] [false] (by decide)

/-! ## C6 — trivial-move condition -/

/-- C6: `Compaction.isTrivialMove` holds exactly when `inputs[0]` has one
file, `inputs[1]` is empty, and the grandparents total at most
10 × `maxFileSize`. -/
theorem isTrivialMove_iff (o : Options) (c : Compaction) :
    isTrivialMove o c = true ↔
      c.inputs0.length = 1 ∧ c.inputs1.length = 0 ∧
        totalFileSize c.grandparents ≤ 10 * o.maxFileSize := by
  simp [isTrivialMove, maxGrandParentOverlapBytes, targetFileSize, and_assoc]

/-! ## C3 — bloom filter has no false negatives -/

/-- C3: for every hash function, key list and count `n`, every key among
the first `n` keys passes `keyMayMatch` against the filter produced by
`putKeys` with the default `bitsPerKey` of 10: the filter is stored with
k byte `bloomK`, so the reconstruction in `keyMayMatch` keeps the bit
count and hash count, and every probe position was set by `putKeys`. -/
theorem bloom_no_false_negatives (hash : List Nat → Int) (keys : List (List Nat))
    (n : Nat) (key : List Nat) (hmem : key ∈ keys.take n) :
    keyMayMatch hash key (putKeys hash keys n) = true := by
  simp only [keyMayMatch, putKeys, ne_eq, not_true_eq_false, if_neg, ite_false,
    not_false_eq_true, reduceIte]
  rw [if_neg (by norm_num [bloomK])]
  rw [List.all_eq_true]
  intro p hp
  rw [List.elem_iff]
  exact List.mem_flatMap.mpr ⟨key, hmem, hp⟩

/-- Witness for `bloom_no_false_negatives`: a concrete two-key filter with
the head-byte hash; the inserted key `[97]` may match. -/
theorem bloom_no_false_negatives_witness :
    keyMayMatch (fun l => (l.headD 0 : Int)) [97]
      (putKeys (fun l => (l.headD 0 : Int)) [[97], [42]] 2) = true :=
  bloom_no_false_negatives (fun l => (l.headD 0 : Int)) [[97], [42]] 2 [97] (by decide)

/-! ## C8 — filters with stored k > 30 -/

/-- C8 (code evaluated at the failing input): on an encoded filter whose
stored hash count is 31 (with one zeroed data byte), `keyMayMatch` does
not return `true` unconditionally: the constructor forces `kNumber` back
to `bloomK = 7`, so the `kNumber > 30` early return never fires and the
probes into the all-zero bit buffer return `false` — for every hash
function and the key `[97]`. -/
theorem keyMayMatch_k31_not_unconditional (hash : List Nat → Int) :
    keyMayMatch hash [97] ⟨8, [], 31⟩ = false := by
  simp only [keyMayMatch, bloomK]
  norm_num
  simp only [probePositions]
  exact ⟨_, List.mem_map.mpr ⟨(0 : Int), by decide, rfl⟩⟩

/-! ## C9 — numbered filenames -/

theorem padLoopAux_eq (fuel : Nat) (s : List Char) (h : 6 ≤ s.length + fuel) :
    padLoopAux fuel s = List.replicate (6 - s.length) '0' ++ s := by
  induction fuel generalizing s with
  | zero =>
    have : 6 - s.length = 0 := by omega
    simp [padLoopAux, this]
  | succ fuel ih =>
    by_cases hs : s.length < 6
    · rw [padLoopAux, if_pos hs, ih ('0' :: s) (by simp; omega)]
      have h1 : 6 - s.length = (6 - ('0' :: s).length) + 1 := by simp; omega
      rw [h1, List.replicate_succ']
      simp
    · rw [padLoopAux, if_neg hs]
      have : 6 - s.length = 0 := by omega
      simp [this]

theorem numberToString_eq (n : Nat) :
    numberToString n = List.replicate (6 - (decDigits n).length) '0' ++ decDigits n :=
  padLoopAux_eq 6 (decDigits n) (by omega)

theorem decDigitsAux_length_le (fuel n k : Nat) (hf : n < fuel) (hk : 1 ≤ k)
    (h : n < 10 ^ k) : (decDigitsAux fuel n).length ≤ k := by
  induction fuel generalizing n k with
  | zero => omega
  | succ fuel ih =>
    rw [decDigitsAux]
    by_cases h10 : n < 10
    · simp [h10, hk]
    · rw [if_neg h10]
      have hk2 : 2 ≤ k := by
        by_contra hc
        have : k = 1 := by omega
        subst this
        simp at h
        omega
      have hdiv : n / 10 < 10 ^ (k - 1) := by
        rw [Nat.div_lt_iff_lt_mul (by norm_num)]
        calc n < 10 ^ k := h
        _ = 10 ^ (k - 1) * 10 := by
              rw [← pow_succ]
              congr 1
              omega
      have := ih (n / 10) (k - 1) (by omega) (by omega) hdiv
      simp only [List.length_append, List.length_cons, List.length_nil]
      omega

theorem decDigits_length_le_six (n : Nat) (h : n ≤ 999999) :
    (decDigits n).length ≤ 6 :=
  decDigitsAux_length_le (n + 1) n 6 (by omega) (by omega) (by norm_num; omega)

/-- C9 (counterexample): the claim says temp filenames are
`NNNNNN.dbtmp` with a zero-padded 6-digit number; `getTempFilename(7)`
produces `7.dbtmp`, not `000007.dbtmp`. -/
theorem getTempFilename_unpadded_cex :
    getTempFilename 7 = "7.dbtmp".data ∧ getTempFilename 7 ≠ "000007.dbtmp".data := by
  constructor
  · decide
  · decide

/-- C9 (amended): for 1 ≤ n ≤ 999999, the log, table and MANIFEST
filenames zero-pad the decimal representation of n to exactly 6 digits,
while the temp filename uses the plain decimal with no padding. -/
theorem numberedFilenames_format (n : Nat) (_h1 : 1 ≤ n) (h6 : n ≤ 999999) :
    getLogFilename n =
      (List.replicate (6 - (decDigits n).length) '0' ++ decDigits n) ++ ".log".data ∧
    getTableFilename n =
      (List.replicate (6 - (decDigits n).length) '0' ++ decDigits n) ++ ".ldb".data ∧
    getManifestFilename n =
      "MANIFEST-".data ++ (List.replicate (6 - (decDigits n).length) '0' ++ decDigits n) ∧
    (List.replicate (6 - (decDigits n).length) '0' ++ decDigits n).length = 6 ∧
    getTempFilename n = decDigits n ++ ".dbtmp".data := by
  have hlen := decDigits_length_le_six n h6
  refine ⟨?_, ?_, ?_, ?_, rfl⟩
  · rw [getLogFilename, numberToString_eq]
  · rw [getTableFilename, numberToString_eq]
  · rw [getManifestFilename, numberToString_eq]
  · simp only [List.length_append, List.length_replicate]
    omega

/-- Witness for `numberedFilenames_format` at n = 12. -/
theorem numberedFilenames_format_witness :
    getLogFilename 12 = "000012.log".data ∧ getTempFilename 12 = "12.dbtmp".data := by
  have h := numberedFilenames_format 12 (by norm_num) (by norm_num)
  exact ⟨by rw [h.1]; decide, by rw [h.2.2.2.2]; decide⟩

/-! ## C5 — compactRange input cap -/

theorem totalFileSize_cons (f : FileMetaData) (l : List FileMetaData) :
    totalFileSize (f :: l) = f.fileSize + totalFileSize l := by
  have haux : ∀ (l : List FileMetaData) (init : Nat),
      l.foldl (fun sum g => sum + g.fileSize) init = init + totalFileSize l := by
    intro l
    induction l with
    | nil => intro init; simp [totalFileSize]
    | cons g l ih =>
      intro init
      simp only [totalFileSize, List.foldl_cons, Nat.zero_add] at *
      rw [ih, ih g.fileSize]
      omega
  simp only [totalFileSize, List.foldl_cons, Nat.zero_add]
  exact haux l f.fileSize

theorem capInputs_dropLast_lt (l : List FileMetaData) (limit total : Nat)
    (h : total < limit) :
    totalFileSize (capInputs l limit total).dropLast + total < limit := by
  induction l generalizing total with
  | nil => simpa [capInputs, totalFileSize]
  | cons f rest ih =>
    rw [capInputs]
    by_cases hc : limit ≤ total + f.fileSize
    · rw [if_pos hc]
      simpa [totalFileSize]
    · rw [if_neg hc]
      have hlt : total + f.fileSize < limit := by omega
      cases hr : capInputs rest limit (total + f.fileSize) with
      | nil => simpa [totalFileSize]
      | cons g tl =>
        rw [List.dropLast_cons_of_ne_nil (by simp), totalFileSize_cons]
        have := ih (total + f.fileSize) hlt
        rw [hr] at this
        omega

/-- C5 (counterexample): the claim says the selected level-L input total
is at most `max_file_size`; with one overlapping file of 2097153 bytes
and `max_file_size = 2097152`, level 1, the capping loop still keeps the
file, so the total exceeds the cap. -/
theorem compactRange_cap_exceeded_cex :
    totalFileSize (compactRangeInputs
        [⟨1, 2097153, mkInternalKey [0] 1 1, mkInternalKey [255] 1 1⟩]
        (mkInternalKey [1] 1 1) (mkInternalKey [2] 1 1) 1 2097152) = 2097153 ∧
    ¬ totalFileSize (compactRangeInputs
        [⟨1, 2097153, mkInternalKey [0] 1 1, mkInternalKey [255] 1 1⟩]
        (mkInternalKey [1] 1 1) (mkInternalKey [2] 1 1) 1 2097152) ≤ 2097152 := by
  constructor
  · decide
  · decide

/-- C5 (amended): for level > 0 and a positive `max_file_size`, the
capping loop in `compactRange` stops at the first file at which the
running total reaches `max_file_size`; hence the selected inputs without
their last file total strictly less than `max_file_size` (the full total
may exceed it by at most the last file's size). -/
theorem compactRange_cap_amended (files : List FileMetaData) (bg ed : List Nat)
    (level mfs : Nat) (hl : 0 < level) (hm : 0 < mfs) :
    totalFileSize (compactRangeInputs files bg ed level mfs).dropLast < mfs := by
  unfold compactRangeInputs
  by_cases he : (getOverlappingInputs files bg ed).isEmpty
  · simp [he, totalFileSize, hm]
  · rw [if_neg (by simpa using he), if_pos hl]
    have := capInputs_dropLast_lt (getOverlappingInputs files bg ed) mfs 0 hm
    omega

/-- Witness for `compactRange_cap_amended` on the single oversized file. -/
theorem compactRange_cap_amended_witness :
    totalFileSize (compactRangeInputs
        [⟨1, 5000000, mkInternalKey [0] 1 1, mkInternalKey [255] 1 1⟩]
        (mkInternalKey [1] 1 1) (mkInternalKey [2] 1 1) 1 2097152).dropLast < 2097152 :=
  compactRange_cap_amended
    [⟨1, 5000000, mkInternalKey [0] 1 1, mkInternalKey [255] 1 1⟩]
    (mkInternalKey [1] 1 1) (mkInternalKey [2] 1 1) 1 2097152 (by norm_num) (by norm_num)

/-! ## C4 — logAndApply failure leaves the version set untouched -/

/-- C4: whenever `logAndApply` returns a non-ok status, the current
version is unchanged and the database directory holds exactly the files
it held before the call — in particular any MANIFEST created during the
call has been unlinked. -/
theorem logAndApply_failure_preserves (s : VSState) (edit : VersionEditNums)
    (io : LogAndApplyOutcomes) (v : Nat)
    (h : (logAndApply s edit io v).1 = false) :
    (logAndApply s edit io v).2.current = s.current ∧
    (logAndApply s edit io v).2.files = s.files := by
  obtain ⟨cur, hw, mfn, ln, pln, fs⟩ := s
  obtain ⟨sOk, aOk, cOk⟩ := io
  obtain ⟨hl, eln, hp, epn⟩ := edit
  cases hw <;> cases sOk <;> cases aOk <;> cases cOk <;>
    simp_all [logAndApply, List.erase_cons_head]

/-- Witness for `logAndApply_failure_preserves`: a first call (no open
manifest writer) whose snapshot write fails. -/
theorem logAndApply_failure_preserves_witness :
    (logAndApply ⟨0, false, 3, 0, 0, []⟩ ⟨false, 0, false, 0⟩ ⟨false, true, true⟩ 1).2.current = 0 ∧
    (logAndApply ⟨0, false, 3, 0, 0, []⟩ ⟨false, 0, false, 0⟩ ⟨false, true, true⟩ 1).2.files = [] :=
  logAndApply_failure_preserves ⟨0, false, 3, 0, 0, []⟩ ⟨false, 0, false, 0⟩
    ⟨false, true, true⟩ 1 (by decide)

/-! ## C7 — findShortestSeparator stays between start and limit -/

/-- When the bytewise separator actually changes the key, the result is
strictly below `limit`. -/
theorem bytewiseFindShortestSeparator_lt (s l : List Nat)
    (h : bytewiseFindShortestSeparator s l ≠ s) :
    byteCompare (bytewiseFindShortestSeparator s l) l < 0 := by
  induction s generalizing l with
  | nil => simp [bytewiseFindShortestSeparator] at h
  | cons a s ih =>
    cases l with
    | nil => simp [bytewiseFindShortestSeparator] at h
    | cons b l =>
      by_cases hab : a = b
      · subst hab
        rw [bytewiseFindShortestSeparator, if_pos rfl] at h ⊢
        have hne : bytewiseFindShortestSeparator s l ≠ s := fun he => h (by rw [he])
        have := ih l hne
        simpa [byteCompare]
      · rw [bytewiseFindShortestSeparator, if_neg hab] at h ⊢
        by_cases hcond : a < 255 ∧ a + 1 < b
        · rw [if_pos hcond] at h ⊢
          have : a + 1 < b := hcond.2
          simp only [byteCompare, if_pos this]
          norm_num
        · rw [if_neg hcond] at h
          exact absurd rfl h

/-- C7: for internal keys `start` and `limit` with strictly ordered user
keys, `findShortestSeparator` returns a key that is greater than or equal
to `start` and strictly less than `limit` in internal-key order. -/
theorem findShortestSeparator_between (start limit : List Nat)
    (_hs : 8 ≤ start.length) (_hl : 8 ≤ limit.length)
    (hu : byteCompare (extractUserKey start) (extractUserKey limit) < 0) :
    icmpCompare start (icmpFindShortestSeparator start limit) ≤ 0 ∧
    icmpCompare (icmpFindShortestSeparator start limit) limit < 0 := by
  unfold icmpFindShortestSeparator
  by_cases hg : (bytewiseFindShortestSeparator (extractUserKey start)
        (extractUserKey limit)).length < (extractUserKey start).length ∧
      byteCompare (extractUserKey start)
        (bytewiseFindShortestSeparator (extractUserKey start) (extractUserKey limit)) < 0
  · rw [if_pos hg]
    set us := extractUserKey start with hus
    set ul := extractUserKey limit with hul
    set tmp := bytewiseFindShortestSeparator us ul with htmp
    have hne : tmp ≠ us := fun he => by
      have := hg.1
      rw [he] at this
      exact absurd this (lt_irrefl _)
    have htl : byteCompare tmp ul < 0 := bytewiseFindShortestSeparator_lt us ul hne
    have hext : extractUserKey (tmp ++ encodeFixed64
        (packSequenceAndType kMaxSequenceNumber kValueTypeForSeek)) = tmp :=
      extractUserKey_append _ _ (encodeLE_length 8 _)
    constructor
    · rw [icmpCompare_of_user_ne _ _ (by rw [hext, ← hus]; omega), hext, ← hus]
      omega
    · rw [icmpCompare_of_user_ne _ _ (by rw [hext, ← hul]; omega), hext, ← hul]
      omega
  · rw [if_neg hg]
    refine ⟨le_of_eq (icmpCompare_self start), ?_⟩
    rw [icmpCompare_of_user_ne _ _ (by omega)]
    omega

/-- Witness for `findShortestSeparator_between`: user keys `[97, 98, 99]`
and `[97, 100]`; the separator is shortened to `[97, 99]` with the
max-sequence tail, which lies strictly between the two inputs. -/
theorem findShortestSeparator_between_witness :
    icmpCompare (mkInternalKey [97, 98, 99] 5 1)
      (icmpFindShortestSeparator (mkInternalKey [97, 98, 99] 5 1)
        (mkInternalKey [97, 100] 5 1)) ≤ 0 ∧
    icmpCompare (icmpFindShortestSeparator (mkInternalKey [97, 98, 99] 5 1)
        (mkInternalKey [97, 100] 5 1)) (mkInternalKey [97, 100] 5 1) < 0 :=
  findShortestSeparator_between (mkInternalKey [97, 98, 99] 5 1)
    (mkInternalKey [97, 100] 5 1) (by decide) (by decide) (by decide)

end RippleDB
